import Mathlib

/-!
Verification development for `sync_okta_crdb.py`, a batch reconciler that
keeps CockroachDB role membership in sync with Okta group membership.

The Python source is shallowly embedded here:

* Python `re` is modelled by a small regular-expression AST (`Regex`) with a
  priority (backtracking) matcher `mrun` that reproduces the behaviour of
  `re.match` (match starting at position 0, no full-string anchoring) and of
  `re.sub` (replace every non-overlapping occurrence, scanning left to right;
  an empty match at a position emits the replacement and advances one
  character, as in Python >= 3.7).  Replacement templates are modelled as
  literal strings; backreference expansion is not exercised by the claims.
* Python string comparison (`sorted` on strings) is modelled by `pyLe`,
  lexicographic comparison of the code points.
* HTTP traffic against Okta is modelled by an `OktaModel` record of response
  functions; CockroachDB state is a `CrdbState` record of membership lists
  with set semantics, and each `CrdbClient` method becomes a pure state
  transformer.  Python sets are modelled as duplicate-free lists.
* Python exceptions that `sync_one_mapping` lets escape are modelled with
  `Except SyncError`.
-/

/-- Regular-expression abstract syntax: the fragment of Python `re` patterns
the program relies on (empty pattern, literal character, `.`, concatenation,
alternation `|`, Kleene star `*`). -/
inductive Regex where
  | eps : Regex
  | char : Char → Regex
  | dot : Regex
  | seq : Regex → Regex → Regex
  | alt : Regex → Regex → Regex
  | star : Regex → Regex
deriving DecidableEq, Repr

/-- Size of a regex, used to budget the matcher's fuel. -/
def Regex.size : Regex → Nat
  | .eps => 1
  | .char _ => 1
  | .dot => 1
  | .seq a b => a.size + b.size + 1
  | .alt a b => a.size + b.size + 1
  | .star a => a.size + 1

/-- Priority (backtracking) matcher in continuation-passing style, modelling
Python `re` semantics: alternation prefers its left branch, star is greedy,
and a star iteration must consume input (Python cuts empty-width repetition).
`k` receives the unconsumed suffix.  Fuel bounds the recursion; callers pass
ample fuel. -/
def mrun : Nat → Regex → List Char → (List Char → Option (List Char)) → Option (List Char)
  | 0, _, _, _ => none
  | _ + 1, .eps, s, k => k s
  | _ + 1, .char c, s, k =>
    match s with
    | [] => none
    | d :: s' => if d = c then k s' else none
  | _ + 1, .dot, s, k =>
    match s with
    | [] => none
    | _ :: s' => k s'
  | fuel + 1, .seq a b, s, k => mrun fuel a s (fun s2 => mrun fuel b s2 k)
  | fuel + 1, .alt a b, s, k => (mrun fuel a s k) <|> (mrun fuel b s k)
  | fuel + 1, .star a, s, k =>
    (mrun fuel a s (fun s2 => if s2.length < s.length then mrun fuel (.star a) s2 k else none))
      <|> k s

/-- Model of Python `re.match(pattern, s)`: try to match starting at position
0 (no anchoring at the end); on success return the unconsumed suffix. -/
def reMatch (r : Regex) (s : List Char) : Option (List Char) :=
  mrun ((r.size + 1) * (s.length + 1) + s.length + 1) r s some

/-- Model of Python `re.sub(pattern, repl, s)` scanning: at each position try
to match; a non-empty match emits `repl` and resumes after the match; an empty
match emits `repl` and copies one character; otherwise copy one character. -/
def reSubAux (r : Regex) (repl : List Char) : Nat → List Char → List Char
  | 0, s => s
  | fuel + 1, s =>
    match reMatch r s with
    | some rest =>
      if rest.length < s.length then repl ++ reSubAux r repl fuel rest
      else
        match s with
        | [] => repl
        | c :: s' => repl ++ c :: reSubAux r repl fuel s'
    | none =>
      match s with
      | [] => []
      | c :: s' => c :: reSubAux r repl fuel s'

/-- Model of Python `re.sub(pattern, repl, s)`. -/
def reSub (r : Regex) (repl : String) (s : String) : String :=
  ⟨reSubAux r repl.data (s.data.length + 1) s.data⟩

/-- Model of Python `str.lower()` (adequate for the ASCII identities the
program handles). -/
def pyLower (s : String) : String := ⟨s.data.map Char.toLower⟩

/-- Lexicographic comparison of character lists by code point, modelling
Python string comparison. -/
def lexLe : List Char → List Char → Bool
  | [], _ => true
  | _ :: _, [] => false
  | a :: s, b :: t => if a = b then lexLe s t else decide (a < b)

/-- The string order Python `sorted` uses, as a relation on `String`. -/
def pyLe (a b : String) : Prop := lexLe a.data b.data = true

instance : DecidableRel pyLe := fun a b => by
  unfold pyLe
  infer_instance

theorem lexLe_total : ∀ s t : List Char, lexLe s t = true ∨ lexLe t s = true
  | [], _ => by left; rfl
  | _ :: _, [] => by right; rfl
  | a :: s, b :: t => by
    by_cases hab : a = b
    · subst hab
      rcases lexLe_total s t with h | h
      · left; simpa [lexLe] using h
      · right; simpa [lexLe] using h
    · rcases lt_or_gt_of_ne hab with h | h
      · left; simp [lexLe, hab, h]
      · right
        simp [lexLe, Ne.symm hab, h]

theorem lexLe_trans :
    ∀ s t u : List Char, lexLe s t = true → lexLe t u = true → lexLe s u = true
  | [], _, _, _, _ => rfl
  | _ :: _, [], _, h1, _ => by simp [lexLe] at h1
  | _ :: _, _ :: _, [], _, h2 => by simp [lexLe] at h2
  | a :: s, b :: t, c :: u, h1, h2 => by
    by_cases hab : a = b <;> by_cases hbc : b = c
    · subst hab; subst hbc
      simp only [lexLe, if_pos rfl] at h1 h2 ⊢
      exact lexLe_trans s t u h1 h2
    · subst hab
      simp only [lexLe, if_pos rfl] at h1
      simp only [lexLe, if_neg hbc, decide_eq_true_eq] at h2
      simp [lexLe, ne_of_lt h2, h2]
    · subst hbc
      simp only [lexLe, if_neg hab, decide_eq_true_eq] at h1
      simp [lexLe, ne_of_lt h1, h1]
    · simp only [lexLe, if_neg hab, decide_eq_true_eq] at h1
      simp only [lexLe, if_neg hbc, decide_eq_true_eq] at h2
      have hac := lt_trans h1 h2
      simp [lexLe, ne_of_lt hac, hac]

theorem lexLe_antisymm :
    ∀ s t : List Char, lexLe s t = true → lexLe t s = true → s = t
  | [], [], _, _ => rfl
  | [], _ :: _, _, h2 => by simp [lexLe] at h2
  | _ :: _, [], h1, _ => by simp [lexLe] at h1
  | a :: s, b :: t, h1, h2 => by
    by_cases hab : a = b
    · subst hab
      simp only [lexLe, if_pos rfl] at h1 h2
      rw [lexLe_antisymm s t h1 h2]
    · simp only [lexLe, if_neg hab, decide_eq_true_eq] at h1
      simp only [lexLe, if_neg (Ne.symm hab), decide_eq_true_eq] at h2
      exact absurd (lt_trans h1 h2) (lt_irrefl a)

instance : IsTotal String pyLe := ⟨fun a b => lexLe_total a.data b.data⟩

instance : IsTrans String pyLe := ⟨fun a b c => lexLe_trans a.data b.data c.data⟩

instance : IsAntisymm String pyLe :=
  ⟨fun a b h1 h2 => by
    cases a; cases b
    exact congrArg String.mk (lexLe_antisymm _ _ h1 h2)⟩

/-- Model of Python `sorted(set(l))` on a list of strings: the
lexicographically sorted list of the distinct elements. -/
def sortedSet (l : List String) : List String :=
  l.dedup.insertionSort pyLe

/-- Model of a Python set-insert: add the element unless already present. -/
def listInsert {α : Type} [DecidableEq α] (a : α) (l : List α) : List α :=
  if a ∈ l then l else a :: l

example : reMatch (.char 'b') "bab".data = some ['a', 'b'] := by decide
example : reMatch (.char 'b') "ab".data = none := by decide
example : reSub (.char 'b') "x" "bab" = "xax" := by decide
example : reSub (.star .dot) "u" "a" = "uu" := by decide
example : reMatch (.star .dot) "ab".data = some [] := by decide
example : sortedSet ["b", "a", "b"] = ["a", "b"] := by decide

/-- Does `pat` occur as an initial segment of `l`? -/
def startsWithL : List Char → List Char → Bool
  | [], _ => true
  | _ :: _, [] => false
  | a :: p, b :: l => decide (a = b) && startsWithL p l

/-- Model of Python `pat in s` on strings, over character lists. -/
def containsSub (pat : List Char) : List Char → Bool
  | [] => startsWithL pat []
  | c :: r => startsWithL pat (c :: r) || containsSub pat r

/-- Model of Python `s.split(pat)[-1]` restricted to what the code consumes:
the suffix after the last occurrence of `pat`, or `none` when `pat` does not
occur. -/
def afterLastAux (pat : List Char) : List Char → Option (List Char)
  | [] => none
  | c :: r =>
    match afterLastAux pat r with
    | some s => some s
    | none => if startsWithL pat (c :: r) then some ((c :: r).drop pat.length) else none

/-- The tail the code's link regex requires right after the closing `>` of the
URL.  The Python source is `_re.search(r'<([^>]+)>;\\s*rel="next"', link)`:
inside a raw string `\\` denotes two backslash characters, so the regex
demands a literal backslash after the `;`, then zero or more letters `s`,
then `rel="next"`. -/
def relNextTail (l : List Char) : Bool :=
  match l with
  | ';' :: '\\' :: r => startsWithL "rel=\"next\"".data (r.dropWhile (fun c => decide (c = 's')))
  | _ => false

/-- One attempted match of the link regex at the head of `l`: `<`, one or more
characters other than `>` (captured), `>`, then `relNextTail`. -/
def linkGroupAt (l : List Char) : Option (List Char) :=
  match l with
  | '<' :: rest =>
    match rest.takeWhile (fun c => decide (c ≠ '>')), rest.dropWhile (fun c => decide (c ≠ '>')) with
    | [], _ => none
    | grp, '>' :: tail => if relNextTail tail then some grp else none
    | _, _ => none
  | _ => none

/-- Model of `_re.search` with the code's link regex: leftmost match wins;
returns the captured URL group. -/
def searchNextLink : List Char → Option (List Char)
  | [] => none
  | c :: r =>
    match linkGroupAt (c :: r) with
    | some g => some g
    | none => searchNextLink r

/-- Model of the code's cursor extraction: if the link regex matches and the
captured URL contains `after=`, the next cursor is everything after the last
`after=`; otherwise pagination stops. -/
def nextAfter (link : String) : Option String :=
  match searchNextLink link.data with
  | none => none
  | some url =>
    if containsSub "after=".data url then
      match afterLastAux "after=".data url with
      | some s => some ⟨s⟩
      | none => none
    else none

/-- An Okta group record as the code reads it: `g["id"]` and
`g.get("profile", {}).get("name")`. -/
structure GroupRec where
  id : String
  name : Option String
deriving DecidableEq, Repr

/-- An Okta user record as the code reads it:
`u.get("profile", {}).get("email")`. -/
structure UserRec where
  email : Option String
deriving DecidableEq, Repr

/-- The Okta side of the world, as response functions: `searchPage name` is
the page returned for the `search=profile.name sw "name"` query, `qPage name`
the page for the `q=name` query, and `memberPages gid cursor` the
`(records, Link header)` response of the member listing.  `pageFuel` bounds
the pagination loop, which the Python source leaves unbounded. -/
structure OktaModel where
  searchPage : String → List GroupRec
  qPage : String → List GroupRec
  memberPages : String → Option String → List UserRec × String
  pageFuel : Nat

/-- The exceptions `sync_one_mapping` lets escape: `KeyError` from the group
search and (locally caught) `ValueError` from identity derivation. -/
inductive SyncError where
  | groupNotFound : String → SyncError
  | identityMismatch : String → SyncError
deriving DecidableEq, Repr

/-- Model of the page-size computation in `OktaClient.__init__`:
`min(max(page_size, 1), 200)`. -/
def OktaClient.clampedPageSize (page_size : Int) : Int :=
  min (max page_size 1) 200

/-- Model of `OktaClient.find_group_id_by_name`: scan the `sw`-search page for
an exact profile-name match, then the `q`-search page; `KeyError` if neither
has one. -/
def OktaClient.find_group_id_by_name (okta : OktaModel) (name : String) :
    Except SyncError String :=
  match (okta.searchPage name).find? (fun g => decide (g.name = some name)) with
  | some g => .ok g.id
  | none =>
    match (okta.qPage name).find? (fun g => decide (g.name = some name)) with
    | some g => .ok g.id
    | none => .error (.groupNotFound name)

/-- The cursor actually sent: Python only adds the `after` parameter when the
stored token is truthy (`if after:`), so an empty-string token is dropped. -/
def requestCursor : Option String → Option String
  | none => none
  | some a => if a = "" then none else some a

/-- Per-record email collection, modelling
`email = u.get("profile", {}).get("email"); if email: emails.append(email.lower())`.
Python truthiness means a missing email and an empty-string email are both
skipped. -/
def emailOf (u : UserRec) : Option String :=
  match u.email with
  | some e => if e = "" then none else some (pyLower e)
  | none => none

/-- The pagination loop of `list_group_user_emails`, accumulating the emails
of each fetched page and following the (buggy) link-regex cursor. `fuel`
bounds how many further pages may be followed. -/
def OktaClient.collectEmails (okta : OktaModel) (gid : String) :
    Nat → Option String → List String
  | 0, after => ((okta.memberPages gid (requestCursor after)).1).filterMap emailOf
  | fuel + 1, after =>
    let page := okta.memberPages gid (requestCursor after)
    match nextAfter page.2 with
    | some a => page.1.filterMap emailOf ++ OktaClient.collectEmails okta gid fuel (some a)
    | none => page.1.filterMap emailOf

/-- The raw record pages the loop in `list_group_user_emails` fetches, in
order (same traversal as `OktaClient.collectEmails`). -/
def tracePages (okta : OktaModel) (gid : String) : Nat → Option String → List (List UserRec)
  | 0, after => [(okta.memberPages gid (requestCursor after)).1]
  | fuel + 1, after =>
    let page := okta.memberPages gid (requestCursor after)
    match nextAfter page.2 with
    | some a => page.1 :: tracePages okta gid fuel (some a)
    | none => [page.1]

/-- Model of `OktaClient.list_group_user_emails`: run the pagination loop and
return `sorted(set(emails))`. -/
def OktaClient.list_group_user_emails (okta : OktaModel) (gid : String) : List String :=
  sortedSet (OktaClient.collectEmails okta gid okta.pageFuel none)

/-- CockroachDB state as the program touches it: which roles and users exist
and the role-membership table.  Lists carry set semantics (all mutators
insert without duplicating). -/
structure CrdbState where
  roles : List String
  users : List String
  members : List (String × String)
deriving DecidableEq, Repr

/-- Model of `CREATE ROLE IF NOT EXISTS "role"`. -/
def CrdbClient.ensure_role_exists (st : CrdbState) (role : String) : CrdbState :=
  { st with roles := listInsert role st.roles }

/-- Model of `CREATE USER IF NOT EXISTS "user"`. -/
def CrdbClient.ensure_user_exists (st : CrdbState) (user : String) : CrdbState :=
  { st with users := listInsert user st.users }

/-- Model of `SELECT member FROM crdb_internal.role_members WHERE role = $1`
collected into a Python set. -/
def CrdbClient.current_members_of_role (st : CrdbState) (role : String) : List String :=
  ((st.members.filter (fun p => decide (p.1 = role))).map Prod.snd).dedup

/-- Model of `GRANT "role" TO "member"`. -/
def CrdbClient.grant_role_to_member (st : CrdbState) (role member : String) : CrdbState :=
  { st with members := listInsert (role, member) st.members }

/-- Model of `REVOKE "role" FROM "member"`. -/
def CrdbClient.revoke_role_from_member (st : CrdbState) (role member : String) : CrdbState :=
  { st with members := st.members.filter (fun p => decide (p ≠ (role, member))) }

/-- Model of `derive_sql_username`: `re.match` the pattern against the
identity from position 0; on failure raise `ValueError`, otherwise return
`re.sub(pattern, replacement, identity)`. -/
def derive_sql_username (identity : String) (pattern : Regex) (replacement : String) :
    Except SyncError String :=
  match reMatch pattern identity.data with
  | none => .error (.identityMismatch identity)
  | some _ => .ok (reSub pattern replacement identity)

/-- The `identity_map` configuration: a pattern and a replacement template. -/
structure IdMap where
  pattern : Regex
  replacement : String

/-- One configured mapping: Okta group name paired with CockroachDB role. -/
structure Mapping where
  okta_group : String
  crdb_role : String

/-- The record `sync_one_mapping` returns. -/
structure Outcome where
  okta_group : String
  crdb_role : String
  desired_count : Nat
  current_count : Nat
  granted : List String
  revoked : List String
deriving DecidableEq, Repr

/-- The mapping loop of `sync_one_mapping`: derive each email, skipping (with
a warning) those the pattern rejects, and accumulate the successes into the
`desired_members` set. -/
def desiredMembersOf (emails : List String) (idmap : IdMap) : List String :=
  emails.foldl
    (fun acc email =>
      match derive_sql_username email idmap.pattern idmap.replacement with
      | .ok user => listInsert user acc
      | .error _ => acc)
    []

/-- The diff step, line `to_add = sorted(desired_members - current_members)`. -/
def toAddOf (desired current : List String) : List String :=
  (desired.filter (fun x => decide (x ∉ current))).insertionSort pyLe

/-- The diff step, line
`to_remove = sorted(current_members - desired_members) if enforce_removals else []`. -/
def toRemoveOf (enforce_removals : Bool) (desired current : List String) : List String :=
  if enforce_removals then (current.filter (fun x => decide (x ∉ desired))).insertionSort pyLe
  else []

/-- Model of `sync_one_mapping`, with the CockroachDB state passed
explicitly; the Okta side is read-only.  Returns the final state and the
outcome record, or the escaping exception. -/
def sync_one_mapping (okta : OktaModel) (st : CrdbState) (mapping : Mapping) (idmap : IdMap)
    (ensure_users ensure_roles enforce_removals dry_run : Bool) :
    Except SyncError (CrdbState × Outcome) :=
  match OktaClient.find_group_id_by_name okta mapping.okta_group with
  | .error e => .error e
  | .ok gid =>
    let okta_emails := OktaClient.list_group_user_emails okta gid
    let desired_members := desiredMembersOf okta_emails idmap
    let st1 := if ensure_roles && !dry_run then
        CrdbClient.ensure_role_exists st mapping.crdb_role
      else st
    let st2 := if ensure_users && !dry_run then
        (desired_members.insertionSort pyLe).foldl CrdbClient.ensure_user_exists st1
      else st1
    let current_members := CrdbClient.current_members_of_role st2 mapping.crdb_role
    let to_add := toAddOf desired_members current_members
    let to_remove := toRemoveOf enforce_removals desired_members current_members
    let st3 := if dry_run then st2
      else to_add.foldl (fun s u => CrdbClient.grant_role_to_member s mapping.crdb_role u) st2
    let st4 := if dry_run then st3
      else to_remove.foldl (fun s u => CrdbClient.revoke_role_from_member s mapping.crdb_role u) st3
    .ok (st4,
      { okta_group := mapping.okta_group
        crdb_role := mapping.crdb_role
        desired_count := desired_members.length
        current_count := current_members.length
        granted := to_add
        revoked := to_remove })

instance {ε α : Type} [DecidableEq ε] [DecidableEq α] : DecidableEq (Except ε α) := fun a b =>
  match a, b with
  | .ok x, .ok y =>
    if h : x = y then isTrue (by rw [h]) else isFalse (fun hc => h (Except.ok.inj hc))
  | .error x, .error y =>
    if h : x = y then isTrue (by rw [h]) else isFalse (fun hc => h (Except.error.inj hc))
  | .ok _, .error _ => isFalse (fun hc => Except.noConfusion hc)
  | .error _, .ok _ => isFalse (fun hc => Except.noConfusion hc)

theorem reMatch_char_nil (c : Char) : reMatch (.char c) [] = none := rfl

theorem reMatch_char_cons (c d : Char) (s : List Char) :
    reMatch (.char c) (d :: s) = if d = c then some s else none := by
  simp [reMatch, mrun]

theorem reSubAux_char (c : Char) (t : List Char) :
    ∀ (s : List Char) (fuel : Nat), s.length < fuel →
      reSubAux (.char c) t fuel s = s.flatMap (fun d => if d = c then t else [d])
  | s, 0, h => absurd h (Nat.not_lt_zero _)
  | [], fuel + 1, _ => by simp [reSubAux, reMatch_char_nil]
  | d :: s, fuel + 1, h => by
    have hs : s.length < fuel := Nat.lt_of_succ_lt_succ h
    by_cases hdc : d = c
    · simp only [reSubAux, reMatch_char_cons, if_pos hdc,
        List.length_cons, Nat.lt_succ_self, if_pos, List.flatMap_cons]
      rw [reSubAux_char c t s fuel hs]
    · simp only [reSubAux, reMatch_char_cons, if_neg hdc, List.flatMap_cons]
      rw [reSubAux_char c t s fuel hs]
      simp [hdc]

theorem reSub_char (c : Char) (t : String) (s : String) :
    reSub (.char c) t s = ⟨s.data.flatMap (fun d => if d = c then t.data else [d])⟩ := by
  unfold reSub
  rw [reSubAux_char c t.data s.data (s.data.length + 1) (Nat.lt_succ_self _)]

theorem mem_listInsert {α : Type} [DecidableEq α] (a b : α) (l : List α) :
    b ∈ listInsert a l ↔ b ∈ l ∨ b = a := by
  unfold listInsert
  split_ifs with h
  · constructor
    · exact fun hb => Or.inl hb
    · rintro (hb | rfl) <;> [exact hb; exact h]
  · simp [or_comm]

/-- C9: the configured `page_size` is clamped into `[1, 200]`: values below 1
become 1, values above 200 become 200, and in-range values are kept. -/
theorem clampedPageSize_spec (n : Int) :
    OktaClient.clampedPageSize n = if n < 1 then 1 else if n ≤ 200 then n else 200 := by
  simp only [OktaClient.clampedPageSize, min_def, max_def]
  split_ifs <;> omega

/-- C5: `derive_sql_username` with a (syntactically valid, as all `Regex`
values are) pattern is deterministic; it succeeds exactly when the pattern
matches the identity starting at position 0 (unanchored match-from-start:
the final conjunct shows a pattern covering a proper prefix still succeeds);
a non-matching identity produces the `IdentityMismatch` error and never any
other error kind. -/
theorem derive_deterministic_and_mismatch (x : String) (p : Regex) (r : String) :
    (∀ x' p' r', x' = x → p' = p → r' = r →
        derive_sql_username x' p' r' = derive_sql_username x p r) ∧
    ((reMatch p x.data).isSome → derive_sql_username x p r = .ok (reSub p r x)) ∧
    (reMatch p x.data = none →
        derive_sql_username x p r = .error (.identityMismatch x)) ∧
    (∀ e, derive_sql_username x p r = .error e → e = .identityMismatch x) ∧
    derive_sql_username "ab" (.char 'a') "x" = .ok "xb" := by
  refine ⟨?_, ?_, ?_, ?_, by decide⟩
  · rintro x' p' r' rfl rfl rfl
    rfl
  · intro h
    unfold derive_sql_username
    cases hm : reMatch p x.data with
    | none => rw [hm] at h; simp at h
    | some rest => rfl
  · intro h
    unfold derive_sql_username
    rw [h]
  · intro e he
    unfold derive_sql_username at he
    cases hm : reMatch p x.data with
    | none =>
      rw [hm] at he
      exact (Except.error.inj he).symm
    | some rest => rw [hm] at he; exact absurd he (fun hc => Except.noConfusion hc)

theorem c5_witness :
    derive_sql_username "ab" (.char 'a') "x" = .ok "xb" ∧
    derive_sql_username "zb" (.char 'a') "x" = .error (.identityMismatch "zb") := by
  constructor
  · exact (derive_deterministic_and_mismatch "ab" (.char 'a') "x").2.2.2.2
  · exact (derive_deterministic_and_mismatch "zb" (.char 'a') "x").2.2.1 (by decide)

/-- C10: when the pattern matches the identity at position 0, the
substitution applies to every non-overlapping occurrence anywhere in the
identity, not only to the initial match (shown in full generality for a
single-character pattern, which already separates global replacement from
first-occurrence replacement). -/
theorem derive_sub_replaces_all (c : Char) (t : String) (s : String)
    (h : (reMatch (.char c) s.data).isSome) :
    derive_sql_username s (.char c) t =
      .ok ⟨s.data.flatMap (fun d => if d = c then t.data else [d])⟩ := by
  unfold derive_sql_username
  cases hm : reMatch (.char c) s.data with
  | none => rw [hm] at h; simp at h
  | some rest => rw [reSub_char]

theorem c10_witness :
    derive_sql_username "bab" (.char 'b') "x" = .ok "xax" ∧ "xax" ≠ "xab" := by
  constructor
  · exact (derive_sub_replaces_all 'b' "x" "bab" (by decide)).trans
      (congrArg Except.ok (by decide))
  · decide

/-- C7: two distinct external identities that derive to the same principal
name silently merge into a single element of the desired-membership set
(the mapping step is total, so the collision raises no error). -/
theorem collision_merges (e1 e2 : String) (idmap : IdMap) (u : String)
    (hne : e1 ≠ e2)
    (h1 : derive_sql_username e1 idmap.pattern idmap.replacement = .ok u)
    (h2 : derive_sql_username e2 idmap.pattern idmap.replacement = .ok u) :
    desiredMembersOf [e1, e2] idmap = [u] ∧
    (desiredMembersOf [e1, e2] idmap).length = 1 := by
  have hlist : desiredMembersOf [e1, e2] idmap = [u] := by
    simp [desiredMembersOf, h1, h2, listInsert]
  exact ⟨hlist, by rw [hlist]; rfl⟩

theorem c7_witness :
    desiredMembersOf ["ab", "ba"] ⟨.alt (.char 'a') (.char 'b'), "u"⟩ = ["uu"] :=
  (collision_merges "ab" "ba" ⟨.alt (.char 'a') (.char 'b'), "u"⟩ "uu"
    (by decide) (by decide) (by decide)).1

/-- C1: for every desired-membership set D and current-membership set C the
diff step computes `to_add` as the lexicographically sorted duplicate-free
list of D − C, and `to_remove` as the sorted list of C − D when
`enforce_removals` is enabled and as the empty list when it is disabled; no
element appears in both lists. -/
theorem diff_step_correct (D C : List String) (enf : Bool)
    (hD : D.Nodup) (hC : C.Nodup) :
    (toAddOf D C).Sorted pyLe ∧ (toAddOf D C).Nodup ∧
    (∀ x, x ∈ toAddOf D C ↔ x ∈ D ∧ x ∉ C) ∧
    (toRemoveOf true D C).Sorted pyLe ∧ (toRemoveOf true D C).Nodup ∧
    (∀ x, x ∈ toRemoveOf true D C ↔ x ∈ C ∧ x ∉ D) ∧
    toRemoveOf false D C = [] ∧
    (∀ x, x ∈ toAddOf D C → x ∉ toRemoveOf enf D C) := by
  have hmemA : ∀ x, x ∈ toAddOf D C ↔ x ∈ D ∧ x ∉ C := by
    intro x
    simp [toAddOf, List.mem_insertionSort, List.mem_filter]
  have hmemR : ∀ x, x ∈ toRemoveOf true D C ↔ x ∈ C ∧ x ∉ D := by
    intro x
    simp [toRemoveOf, List.mem_insertionSort, List.mem_filter]
  refine ⟨List.sorted_insertionSort pyLe _, ?_, hmemA,
    List.sorted_insertionSort pyLe _, ?_, hmemR, rfl, ?_⟩
  · exact ((List.perm_insertionSort pyLe _).nodup_iff).mpr (hD.filter _)
  · exact ((List.perm_insertionSort pyLe _).nodup_iff).mpr (hC.filter _)
  · intro x hx
    cases enf with
    | false => simp [toRemoveOf]
    | true =>
      intro hr
      exact ((hmemA x).mp hx).2 ((hmemR x).mp hr).1

theorem c1_witness :
    "a" ∈ toAddOf ["a"] [] ∧ "a" ∉ toRemoveOf true ["a"] [] := by
  have h := diff_step_correct ["a"] [] true (by decide) (by decide)
  have hmem : "a" ∈ toAddOf ["a"] [] := (h.2.2.1 "a").mpr (by simp)
  exact ⟨hmem, h.2.2.2.2.2.2.2 "a" hmem⟩

/-- C6: `find_group_id_by_name` only ever returns the id of a group whose
display name equals the requested name exactly (never a merely
starts-with match); the sw-search page is scanned first; only when it holds
no exact match is the q-search page consulted, and an exact match found
there is returned; when neither single page holds an exact match the call
fails with the group-not-found error. -/
theorem find_group_exact_match (okta : OktaModel) (name : String) :
    (∀ i, OktaClient.find_group_id_by_name okta name = .ok i →
        ∃ g, (g ∈ okta.searchPage name ∨ g ∈ okta.qPage name) ∧
          g.name = some name ∧ g.id = i) ∧
    ((∃ g ∈ okta.searchPage name, g.name = some name) →
        ∃ g, g ∈ okta.searchPage name ∧ g.name = some name ∧
          OktaClient.find_group_id_by_name okta name = .ok g.id) ∧
    ((∀ g ∈ okta.searchPage name, g.name ≠ some name) →
      (∃ g ∈ okta.qPage name, g.name = some name) →
        ∃ g, g ∈ okta.qPage name ∧ g.name = some name ∧
          OktaClient.find_group_id_by_name okta name = .ok g.id) ∧
    ((∀ g ∈ okta.searchPage name, g.name ≠ some name) →
      (∀ g ∈ okta.qPage name, g.name ≠ some name) →
        OktaClient.find_group_id_by_name okta name = .error (.groupNotFound name)) := by
  unfold OktaClient.find_group_id_by_name
  cases hs : (okta.searchPage name).find? (fun g => decide (g.name = some name)) with
  | some g =>
    have hmem := List.mem_of_find?_eq_some hs
    have hname : g.name = some name := by
      have := List.find?_some hs
      simpa using this
    refine ⟨?_, ?_, ?_, ?_⟩
    · intro i hi
      exact ⟨g, Or.inl hmem, hname, Except.ok.inj hi⟩
    · intro _
      exact ⟨g, hmem, hname, rfl⟩
    · intro hall _
      exact absurd hname (hall g hmem)
    · intro hall _
      exact absurd hname (hall g hmem)
  | none =>
    have hnone : ∀ g ∈ okta.searchPage name, ¬ g.name = some name := by
      intro g hg
      have := List.find?_eq_none.mp hs g hg
      simpa using this
    cases hq : (okta.qPage name).find? (fun g => decide (g.name = some name)) with
    | some g =>
      have hmem := List.mem_of_find?_eq_some hq
      have hname : g.name = some name := by
        have := List.find?_some hq
        simpa using this
      refine ⟨?_, ?_, ?_, ?_⟩
      · intro i hi
        exact ⟨g, Or.inr hmem, hname, Except.ok.inj hi⟩
      · rintro ⟨g', hg', hname'⟩
        exact absurd hname' (hnone g' hg')
      · intro _ _
        exact ⟨g, hmem, hname, rfl⟩
      · intro _ hall
        exact absurd hname (hall g hmem)
    | none =>
      have hqnone : ∀ g ∈ okta.qPage name, ¬ g.name = some name := by
        intro g hg
        have := List.find?_eq_none.mp hq g hg
        simpa using this
      refine ⟨?_, ?_, ?_, ?_⟩
      · intro i hi
        exact absurd hi (fun hc => Except.noConfusion hc)
      · rintro ⟨g', hg', hname'⟩
        exact absurd hname' (hnone g' hg')
      · rintro _ ⟨g', hg', hname'⟩
        exact absurd hname' (hqnone g' hg')
      · intro _ _
        rfl

/-- A concrete Okta model whose sw-search page holds only a group whose name
merely starts with the requested name. -/
def c6okta : OktaModel :=
  { searchPage := fun _ => [{ id := "idB", name := some "teampp" }]
    qPage := fun _ => []
    memberPages := fun _ _ => ([], "")
    pageFuel := 0 }

/-- A concrete Okta model whose sw-search page holds only a starts-with
match while the q-search page holds the exact match. -/
def c6oktaFallback : OktaModel :=
  { searchPage := fun _ => [{ id := "idB", name := some "teampp" }]
    qPage := fun _ => [{ id := "idQ", name := some "team" }]
    memberPages := fun _ _ => ([], "")
    pageFuel := 0 }

theorem c6_witness :
    OktaClient.find_group_id_by_name c6okta "team" = .error (.groupNotFound "team") ∧
    OktaClient.find_group_id_by_name c6oktaFallback "team" = .ok "idQ" := by
  constructor
  · exact (find_group_exact_match c6okta "team").2.2.2 (by decide) (by decide)
  · obtain ⟨g, hg, hname, heq⟩ :=
      (find_group_exact_match c6oktaFallback "team").2.2.1 (by decide)
        ⟨⟨"idQ", some "team"⟩, by simp [c6oktaFallback], rfl⟩
    have hgq : g = ⟨"idQ", some "team"⟩ := by
      simpa [c6oktaFallback] using hg
    rw [hgq] at heq
    exact heq

theorem collectEmails_eq_tracePages (okta : OktaModel) (gid : String) :
    ∀ (fuel : Nat) (after : Option String),
      OktaClient.collectEmails okta gid fuel after =
        (tracePages okta gid fuel after).flatMap (fun page => page.filterMap emailOf)
  | 0, after => by simp [OktaClient.collectEmails, tracePages]
  | fuel + 1, after => by
    simp only [OktaClient.collectEmails, tracePages]
    cases h : nextAfter (okta.memberPages gid (requestCursor after)).2 with
    | some a =>
      simp [h, collectEmails_eq_tracePages okta gid fuel (some a)]
    | none => simp [h]

theorem emailOf_eq_some (u : UserRec) (x : String) :
    emailOf u = some x ↔ ∃ e, u.email = some e ∧ e ≠ "" ∧ pyLower e = x := by
  cases u with
  | mk em =>
    cases em with
    | none => simp [emailOf]
    | some e =>
      by_cases he : e = ""
      · subst he; simp [emailOf]
      · simp [emailOf, he]

theorem sortedSet_sorted (l : List String) : (sortedSet l).Sorted pyLe :=
  List.sorted_insertionSort pyLe _

theorem sortedSet_nodup (l : List String) : (sortedSet l).Nodup :=
  ((List.perm_insertionSort pyLe _).nodup_iff).mpr (List.nodup_dedup l)

theorem mem_sortedSet (l : List String) (x : String) : x ∈ sortedSet l ↔ x ∈ l := by
  simp [sortedSet, List.mem_insertionSort, List.mem_dedup]

/-- C8 (amended): `list_group_user_emails` returns the sorted, de-duplicated
collection of the lower-cased email fields of exactly those records, among
the pages the loop fetched, that carry a non-empty email field; records
lacking the field -- or carrying the Python-falsy empty string -- are
silently skipped. -/
theorem list_emails_sorted_dedup (okta : OktaModel) (gid : String) :
    OktaClient.list_group_user_emails okta gid =
      sortedSet ((tracePages okta gid okta.pageFuel none).flatMap
        (fun page => page.filterMap emailOf)) ∧
    (OktaClient.list_group_user_emails okta gid).Sorted pyLe ∧
    (OktaClient.list_group_user_emails okta gid).Nodup ∧
    (∀ x, x ∈ OktaClient.list_group_user_emails okta gid ↔
      ∃ page ∈ tracePages okta gid okta.pageFuel none,
        ∃ u ∈ page, ∃ e, u.email = some e ∧ e ≠ "" ∧ pyLower e = x) := by
  refine ⟨?_, sortedSet_sorted _, sortedSet_nodup _, ?_⟩
  · unfold OktaClient.list_group_user_emails
    rw [collectEmails_eq_tracePages]
  · intro x
    unfold OktaClient.list_group_user_emails
    rw [collectEmails_eq_tracePages]
    simp only [mem_sortedSet, List.mem_flatMap, List.mem_filterMap, emailOf_eq_some]

/-- A member page containing a record lacking the email field, a record whose
email field is present but empty, and an ordinary record. -/
def c8okta : OktaModel :=
  { searchPage := fun _ => []
    qPage := fun _ => []
    memberPages := fun _ _ =>
      ([{ email := none }, { email := some "" }, { email := some "A@x" }], "")
    pageFuel := 3 }

/-- C8 counterexample: the claim as stated collects the email field of every
record that has one, but the code's `if email:` truthiness test also skips a
record whose email field is present and equal to the empty string, so the
claimed output (which would contain `""`) differs from the code's output. -/
theorem c8_counterexample :
    OktaClient.list_group_user_emails c8okta "g" = ["a@x"] ∧
    sortedSet (((c8okta.memberPages "g" none).1).filterMap
        (fun u => u.email.map pyLower)) = ["", "a@x"] ∧
    OktaClient.list_group_user_emails c8okta "g" ≠
      sortedSet (((c8okta.memberPages "g" none).1).filterMap
        (fun u => u.email.map pyLower)) := by
  refine ⟨by decide, by decide, by decide⟩

theorem c8_amended_witness : (OktaClient.list_group_user_emails c8okta "g").Nodup :=
  (list_emails_sorted_dedup c8okta "g").2.2.1

/-- Modelled from the spec: the intended tail of a continuation link after
the URL group -- `;`, optional whitespace, then `rel="next"` (the spec
describes "a 'next' continuation reference carried in a response header"). -/
def specRelNextTail (l : List Char) : Bool :=
  match l with
  | ';' :: r => startsWithL "rel=\"next\"".data (r.dropWhile Char.isWhitespace)
  | _ => false

/-- Modelled from the spec: one attempted match of the intended link shape at
the head of `l`. -/
def specLinkGroupAt (l : List Char) : Option (List Char) :=
  match l with
  | '<' :: rest =>
    match rest.takeWhile (fun c => decide (c ≠ '>')),
        rest.dropWhile (fun c => decide (c ≠ '>')) with
    | [], _ => none
    | grp, '>' :: tail => if specRelNextTail tail then some grp else none
    | _, _ => none
  | _ => none

/-- Modelled from the spec: leftmost intended-link match. -/
def specSearchNextLink : List Char → Option (List Char)
  | [] => none
  | c :: r =>
    match specLinkGroupAt (c :: r) with
    | some g => some g
    | none => specSearchNextLink r

/-- Modelled from the spec: the `after` token the intended parsing extracts
from a continuation link header. -/
def specNextAfter (link : String) : Option String :=
  match specSearchNextLink link.data with
  | none => none
  | some url =>
    if containsSub "after=".data url then
      match afterLastAux "after=".data url with
      | some s => some ⟨s⟩
      | none => none
    else none

/-- A provider that serves two member pages, the first carrying a standard
`rel="next"` continuation link whose cursor is `tok`. -/
def c4okta : OktaModel :=
  { searchPage := fun _ => []
    qPage := fun _ => []
    memberPages := fun _ cursor =>
      match cursor with
      | none => ([{ email := some "a@x" }], "<https://o/u?after=tok>; rel=\"next\"")
      | some a => if a = "tok" then ([{ email := some "b@x" }], "") else ([], "")
    pageFuel := 5 }

/-- C4: the code's link regex is written `r'<([^>]+)>;\\s*rel="next"'`; in a
raw string the doubled backslash denotes a literal backslash, so the regex
demands `;\` before `rel="next"` and never matches a standard Link header.
The intended parsing (`specNextAfter`) extracts the cursor `tok`, but the
code's parsing (`nextAfter`) extracts nothing, so the loop stops after the
first page and the second page's member is never collected. -/
theorem pagination_stops_after_first_page :
    specNextAfter "<https://o/u?after=tok>; rel=\"next\"" = some "tok" ∧
    nextAfter "<https://o/u?after=tok>; rel=\"next\"" = none ∧
    OktaClient.list_group_user_emails c4okta "g" = ["a@x"] ∧
    "b@x" ∉ OktaClient.list_group_user_emails c4okta "g" := by
  refine ⟨by decide, by decide, by decide, by decide⟩

theorem members_foldl_ensure_user (l : List String) (st : CrdbState) :
    (l.foldl CrdbClient.ensure_user_exists st).members = st.members := by
  induction l generalizing st with
  | nil => rfl
  | cons a l ih => simpa [List.foldl_cons] using ih (CrdbClient.ensure_user_exists st a)

theorem currentOf_eq_of_members_eq (st st' : CrdbState) (role : String)
    (h : st.members = st'.members) :
    CrdbClient.current_members_of_role st role =
      CrdbClient.current_members_of_role st' role := by
  unfold CrdbClient.current_members_of_role
  rw [h]

theorem currentOf_foldl_ensure_user (l : List String) (st : CrdbState) (role : String) :
    CrdbClient.current_members_of_role (l.foldl CrdbClient.ensure_user_exists st) role =
      CrdbClient.current_members_of_role st role :=
  currentOf_eq_of_members_eq _ _ _ (members_foldl_ensure_user l st)

theorem currentOf_ensure_role (st : CrdbState) (r role : String) :
    CrdbClient.current_members_of_role (CrdbClient.ensure_role_exists st r) role =
      CrdbClient.current_members_of_role st role := rfl

/-- C2: under dry-run no store call mutates external state (the returned
state is the starting state), and the reported granted/revoked lists equal
those a non-dry-run execution from the identical starting state would have
produced and applied. -/
theorem dry_run_pure (okta : OktaModel) (st : CrdbState) (mapping : Mapping) (idmap : IdMap)
    (eu er enf : Bool) :
    (∀ st' out, sync_one_mapping okta st mapping idmap eu er enf true = .ok (st', out) →
        st' = st) ∧
    ((sync_one_mapping okta st mapping idmap eu er enf true).map
        (fun p => (p.2.granted, p.2.revoked)) =
      (sync_one_mapping okta st mapping idmap eu er enf false).map
        (fun p => (p.2.granted, p.2.revoked))) := by
  unfold sync_one_mapping
  cases hg : OktaClient.find_group_id_by_name okta mapping.okta_group with
  | error e =>
    refine ⟨?_, rfl⟩
    intro st' out h
    exact absurd h (fun hc => Except.noConfusion hc)
  | ok gid =>
    constructor
    · intro st' out h
      simp only [Bool.not_true, Bool.and_false, Bool.false_eq_true, if_false,
        if_true, Except.ok.injEq, Prod.mk.injEq] at h
      exact h.1.symm
    · simp only [Bool.not_true, Bool.not_false, Bool.and_false, Bool.and_true,
        Bool.false_eq_true, if_false, if_true, Except.map]
      cases heu : eu <;> cases her : er <;>
        simp [currentOf_foldl_ensure_user, currentOf_ensure_role]

theorem mem_currentOf (st : CrdbState) (role x : String) :
    x ∈ CrdbClient.current_members_of_role st role ↔ (role, x) ∈ st.members := by
  unfold CrdbClient.current_members_of_role
  simp only [List.mem_dedup, List.mem_map, List.mem_filter, decide_eq_true_eq]
  constructor
  · rintro ⟨⟨a, b⟩, ⟨hm, ha⟩, hb⟩
    simp only at ha hb
    subst ha
    subst hb
    exact hm
  · intro hm
    exact ⟨(role, x), ⟨hm, rfl⟩, rfl⟩

theorem mem_currentOf_grant (st : CrdbState) (role u x : String) :
    x ∈ CrdbClient.current_members_of_role
        (CrdbClient.grant_role_to_member st role u) role ↔
      x ∈ CrdbClient.current_members_of_role st role ∨ x = u := by
  simp [mem_currentOf, CrdbClient.grant_role_to_member, mem_listInsert, Prod.mk.injEq]

theorem mem_currentOf_grants (l : List String) (st : CrdbState) (role x : String) :
    x ∈ CrdbClient.current_members_of_role
        (l.foldl (fun s u => CrdbClient.grant_role_to_member s role u) st) role ↔
      x ∈ CrdbClient.current_members_of_role st role ∨ x ∈ l := by
  induction l generalizing st with
  | nil => simp
  | cons a l ih =>
    rw [List.foldl_cons, ih, mem_currentOf_grant, List.mem_cons]
    tauto

theorem mem_currentOf_revoke (st : CrdbState) (role u x : String) :
    x ∈ CrdbClient.current_members_of_role
        (CrdbClient.revoke_role_from_member st role u) role ↔
      x ∈ CrdbClient.current_members_of_role st role ∧ x ≠ u := by
  simp [mem_currentOf, CrdbClient.revoke_role_from_member, List.mem_filter,
    Prod.mk.injEq]

theorem mem_currentOf_revokes (l : List String) (st : CrdbState) (role x : String) :
    x ∈ CrdbClient.current_members_of_role
        (l.foldl (fun s u => CrdbClient.revoke_role_from_member s role u) st) role ↔
      x ∈ CrdbClient.current_members_of_role st role ∧ x ∉ l := by
  induction l generalizing st with
  | nil => simp
  | cons a l ih =>
    rw [List.foldl_cons, ih, mem_currentOf_revoke, List.mem_cons]
    tauto

theorem mem_toAddOf (D c : List String) (x : String) :
    x ∈ toAddOf D c ↔ x ∈ D ∧ x ∉ c := by
  simp [toAddOf, List.mem_insertionSort, List.mem_filter]

theorem mem_toRemoveOf (enf : Bool) (D c : List String) (x : String) :
    x ∈ toRemoveOf enf D c ↔ enf = true ∧ x ∈ c ∧ x ∉ D := by
  cases enf <;> simp [toRemoveOf, List.mem_insertionSort, List.mem_filter]

theorem toAddOf_eq_nil_iff (D c : List String) :
    toAddOf D c = [] ↔ ∀ x ∈ D, x ∈ c := by
  constructor
  · intro h x hx
    by_contra hc
    have hmem : x ∈ toAddOf D c := (mem_toAddOf D c x).mpr ⟨hx, hc⟩
    rw [h] at hmem
    exact absurd hmem (List.not_mem_nil x)
  · intro h
    unfold toAddOf
    have hf : D.filter (fun x => decide (x ∉ c)) = [] := by
      rw [List.filter_eq_nil_iff]
      intro a ha
      simp [h a ha]
    rw [hf]
    rfl

theorem toRemoveOf_eq_nil_iff (enf : Bool) (D c : List String) :
    toRemoveOf enf D c = [] ↔ (enf = true → ∀ x ∈ c, x ∈ D) := by
  cases enf with
  | false => simp [toRemoveOf]
  | true =>
    constructor
    · intro h _ x hx
      by_contra hc
      have hmem : x ∈ toRemoveOf true D c := (mem_toRemoveOf true D c x).mpr ⟨rfl, hx, hc⟩
      rw [h] at hmem
      exact absurd hmem (List.not_mem_nil x)
    · intro h
      have hf : c.filter (fun x => decide (x ∉ D)) = [] := by
        rw [List.filter_eq_nil_iff]
        intro a ha
        simp [h rfl a ha]
      have hdef : toRemoveOf true D c =
          (c.filter (fun x => decide (x ∉ D))).insertionSort pyLe := rfl
      rw [hdef, hf]
      rfl

theorem currentOf_ensures_any (st : CrdbState) (r role : String) (ds : List String)
    (b1 b2 : Bool) :
    CrdbClient.current_members_of_role
      (if b1 then
          ds.foldl CrdbClient.ensure_user_exists
            (if b2 then CrdbClient.ensure_role_exists st r else st)
        else if b2 then CrdbClient.ensure_role_exists st r else st) role =
    CrdbClient.current_members_of_role st role := by
  cases b1 <;> cases b2 <;>
    simp [currentOf_foldl_ensure_user, currentOf_ensure_role]

theorem second_run_diff_empty (D : List String) (stA stB : CrdbState) (role : String)
    (enf : Bool)
    (hAB : stB.members =
      ((toRemoveOf enf D (CrdbClient.current_members_of_role stA role)).foldl
        (fun s u => CrdbClient.revoke_role_from_member s role u)
        ((toAddOf D (CrdbClient.current_members_of_role stA role)).foldl
          (fun s u => CrdbClient.grant_role_to_member s role u) stA)).members) :
    toAddOf D (CrdbClient.current_members_of_role stB role) = [] ∧
    toRemoveOf enf D (CrdbClient.current_members_of_role stB role) = [] := by
  have hcur : ∀ x, x ∈ CrdbClient.current_members_of_role stB role ↔
      ((x ∈ CrdbClient.current_members_of_role stA role ∨
          x ∈ toAddOf D (CrdbClient.current_members_of_role stA role)) ∧
        x ∉ toRemoveOf enf D (CrdbClient.current_members_of_role stA role)) := by
    intro x
    rw [currentOf_eq_of_members_eq _ _ role hAB, mem_currentOf_revokes, mem_currentOf_grants]
  constructor
  · rw [toAddOf_eq_nil_iff]
    intro x hx
    rw [hcur x]
    constructor
    · by_cases hxc : x ∈ CrdbClient.current_members_of_role stA role
      · exact Or.inl hxc
      · exact Or.inr ((mem_toAddOf _ _ _).mpr ⟨hx, hxc⟩)
    · intro hr
      exact ((mem_toRemoveOf _ _ _ _).mp hr).2.2 hx
  · rw [toRemoveOf_eq_nil_iff]
    intro henf x hx
    rcases (hcur x).mp hx with ⟨hor, hnr⟩
    by_contra hxD
    rcases hor with hc | ha
    · exact hnr ((mem_toRemoveOf _ _ _ _).mpr ⟨henf, hc, hxD⟩)
    · exact hxD ((mem_toAddOf _ _ _).mp ha).1

/-- C3: running `sync_one_mapping` twice in succession (non-dry-run) for the
same mapping, with no external change between the runs other than the first
run's own grants and revokes, yields empty `to_add` and `to_remove` (the
`granted`/`revoked` lists) on the second run. -/
theorem sync_idempotent (okta : OktaModel) (st : CrdbState) (mapping : Mapping)
    (idmap : IdMap) (eu er enf : Bool) (st1 st2 : CrdbState) (out1 out2 : Outcome)
    (h1 : sync_one_mapping okta st mapping idmap eu er enf false = .ok (st1, out1))
    (h2 : sync_one_mapping okta st1 mapping idmap eu er enf false = .ok (st2, out2)) :
    out2.granted = [] ∧ out2.revoked = [] := by
  unfold sync_one_mapping at h1 h2
  cases hg : OktaClient.find_group_id_by_name okta mapping.okta_group with
  | error e =>
    rw [hg] at h1
    exact absurd h1 (fun hc => Except.noConfusion hc)
  | ok gid =>
    rw [hg] at h1 h2
    simp only [Bool.not_false, Bool.and_true, Bool.false_eq_true, if_false,
      Except.ok.injEq, Prod.mk.injEq] at h1 h2
    obtain ⟨hst1, hout1⟩ := h1
    obtain ⟨hst2, hout2⟩ := h2
    rw [← hout2]
    rw [show ∀ a b c d e f : _, (Outcome.mk a b c d e f).granted = e from fun _ _ _ _ _ _ => rfl,
      show ∀ a b c d e f : _, (Outcome.mk a b c d e f).revoked = f from fun _ _ _ _ _ _ => rfl]
    rw [currentOf_ensures_any]
    exact second_run_diff_empty _ _ st1 mapping.crdb_role enf
      (congrArg CrdbState.members hst1.symm)

/-- A one-group, one-member Okta model used to witness dry-run purity. -/
def c2okta : OktaModel :=
  { searchPage := fun _ => [{ id := "gid1", name := some "grp" }]
    qPage := fun _ => []
    memberPages := fun _ _ => ([{ email := some "a" }], "")
    pageFuel := 0 }

theorem c2_witness :
    (⟨[], [], []⟩ : CrdbState) = ⟨[], [], []⟩ ∧
    (sync_one_mapping c2okta ⟨[], [], []⟩ ⟨"grp", "r"⟩ ⟨.char 'a', "u"⟩ true true false true).map
        (fun p => (p.2.granted, p.2.revoked)) =
      (sync_one_mapping c2okta ⟨[], [], []⟩ ⟨"grp", "r"⟩ ⟨.char 'a', "u"⟩ true true false false).map
        (fun p => (p.2.granted, p.2.revoked)) := by
  constructor
  · exact (dry_run_pure c2okta ⟨[], [], []⟩ ⟨"grp", "r"⟩ ⟨.char 'a', "u"⟩ true true false).1
      ⟨[], [], []⟩ ⟨"grp", "r", 1, 0, ["u"], []⟩ (by decide)
  · exact (dry_run_pure c2okta ⟨[], [], []⟩ ⟨"grp", "r"⟩ ⟨.char 'a', "u"⟩ true true false).2

/-- A one-group, one-member Okta model used to witness idempotence. -/
def c3okta : OktaModel :=
  { searchPage := fun _ => [{ id := "gid1", name := some "grp" }]
    qPage := fun _ => []
    memberPages := fun _ _ => ([{ email := some "a" }], "")
    pageFuel := 0 }

theorem c3_witness :
    (⟨"grp", "r", 1, 1, [], []⟩ : Outcome).granted = [] ∧
    (⟨"grp", "r", 1, 1, [], []⟩ : Outcome).revoked = [] :=
  sync_idempotent c3okta ⟨[], [], []⟩ ⟨"grp", "r"⟩ ⟨.char 'a', "u"⟩ false false false
    ⟨[], [], [("r", "u")]⟩ ⟨[], [], [("r", "u")]⟩ ⟨"grp", "r", 1, 0, ["u"], []⟩
    ⟨"grp", "r", 1, 1, [], []⟩ (by decide) (by decide)
